import Mathlib

/-!
Verification of the cross-runtime test-orchestration harness
(`src/deno-test/deno_test.ts`, with the same logger/tracker/orchestrator
pattern in `src/SdkTest.tsx` and the Bun variant).

The harness state is the triple of fields of `DaytonaDenoTester`:
the global log sequence `logs`, the tracked `testResults`, and
`currentTest`.  The two primitive mutators are `addLog` and
`updateTestStatus`; the orchestrator `runTestWithErrorHandling` wraps a
test body, and `runAllTests` drives a whole suite.

JavaScript executes these single-threadedly, so the run is embedded as a
sequence of primitive calls (`Call`) applied in program order; a test
body (a black-box SDK interaction) is abstracted as a `TestBehavior`: the log
calls it actually performed before settling, and whether it settled
normally (`outcome = none`) or threw (`outcome = some errorMessage`,
the message after the `String(error)` conversion in the source).  Timestamps
(`new Date().toLocaleTimeString()`) are threaded as uninterpreted strings.
-/

/-- Values of the type field of a log entry, from the LogEntry interface. -/
inductive LogType where
  | info
  | error
  | success
  | warning
deriving DecidableEq, Repr

/-- Values of the status field, from the TestResult interface. -/
inductive Status where
  | pending
  | running
  | success
  | error
deriving DecidableEq, Repr

/-- The LogEntry interface: type, message, timestamp, category. -/
structure LogEntry where
  type : LogType
  message : String
  timestamp : String
  category : String
deriving DecidableEq, Repr

/-- The TestResult interface: name, status, logs. -/
structure TestResult where
  name : String
  status : Status
  logs : List LogEntry
deriving DecidableEq, Repr

/-- The mutable fields of the DaytonaDenoTester class: the private
arrays logs and testResults, and the private string currentTest. -/
structure TesterState where
  logs : List LogEntry
  testResults : List TestResult
  currentTest : String
deriving DecidableEq, Repr

/-- The log-entry object literal built at the top of addLog. -/
def entryOf (message : String) (type : LogType) (category : String)
    (timestamp : String) : LogEntry :=
  { type := type, message := message, timestamp := timestamp, category := category }

/-- The method addLog(message, type, category) with defaults type = info
and category = general: push the entry onto this.logs, and map over
this.testResults, appending the entry to the logs of every result whose
name equals category.  The trailing console.log only writes to the
console sink and touches no state. -/
def addLog (s : TesterState) (message : String) (type : LogType)
    (category : String) (timestamp : String) : TesterState :=
  let logEntry := entryOf message type category timestamp
  { s with
    logs := s.logs ++ [logEntry]
    testResults := s.testResults.map fun test =>
      if test.name = category then { test with logs := test.logs ++ [logEntry] } else test }

/-- The method updateTestStatus(testName, status): map over
this.testResults, replacing the status of every result whose name
equals testName. -/
def updateTestStatus (s : TesterState) (testName : String) (status : Status) :
    TesterState :=
  { s with
    testResults := s.testResults.map fun test =>
      if test.name = testName then { test with status := status } else test }

/-- One log call performed by a test body: the arguments the body passes
to addLog, plus the timestamp captured at that moment. -/
structure LogCall where
  message : String
  type : LogType
  category : String
  timestamp : String
deriving DecidableEq, Repr

/-- The observable behavior of one test body (testFn): the addLog calls it
performed before settling, and outcome = none for normal completion or
outcome = some errorMessage when it threw (a body that throws midway
simply has the log calls emitted up to the throw; errorMessage is the
string after the String(error) conversion of the source).  The fields
startTs and endTs are the timestamps captured by the two addLog calls
of the orchestrator itself. -/
structure TestBehavior where
  logCalls : List LogCall
  outcome : Option String
  startTs : String
  endTs : String
deriving DecidableEq, Repr

/-- Replay the addLog calls of a body in order. -/
def execLogCalls (s : TesterState) (cs : List LogCall) : TesterState :=
  cs.foldl (fun t c => addLog t c.message c.type c.category c.timestamp) s

/-- The terminal status runTestWithErrorHandling assigns: success on
normal completion, error when the body threw. -/
def finalStatus (b : TestBehavior) : Status :=
  match b.outcome with
  | none => Status.success
  | some _ => Status.error

/-- The orchestrator method runTestWithErrorHandling(testName, testFn):
set currentTest, set status running, log the starting message, run the
body, then on normal completion set status success and log the success
message, and in the catch branch set status error and log the error
message carrying the failure detail.  The catch swallows the failure,
so this function is total: nothing propagates to the caller. -/
def runTestWithErrorHandling (s : TesterState) (testName : String)
    (b : TestBehavior) : TesterState :=
  let s1 := { s with currentTest := testName }
  let s2 := updateTestStatus s1 testName Status.running
  let s3 := addLog s2 ("🔄 Starting " ++ testName ++ "...") LogType.info testName b.startTs
  let s4 := execLogCalls s3 b.logCalls
  match b.outcome with
  | none =>
    let s5 := updateTestStatus s4 testName Status.success
    addLog s5 ("✅ " ++ testName ++ " completed successfully!") LogType.success testName b.endTs
  | some errorMessage =>
    let s5 := updateTestStatus s4 testName Status.error
    addLog s5 ("❌ Error in " ++ testName ++ ": " ++ errorMessage) LogType.error testName b.endTs

/-- A primitive state-mutating call, in the order the single-threaded
runtime performs them: an addLog call, an updateTestStatus call, or the
assignment to this.currentTest. -/
inductive Call where
  | log (message : String) (type : LogType) (category : String) (timestamp : String)
  | status (testName : String) (st : Status)
  | current (testName : String)
deriving DecidableEq, Repr

/-- Apply one primitive call to the state. -/
def execCall (s : TesterState) : Call → TesterState
  | Call.log m ty c ts => addLog s m ty c ts
  | Call.status n st => updateTestStatus s n st
  | Call.current n => { s with currentTest := n }

/-- Apply a sequence of calls in program order. -/
def runCalls (s : TesterState) (cs : List Call) : TesterState :=
  cs.foldl execCall s

/-- The intermediate states observed after each call of a sequence. -/
def statesAfter (s : TesterState) : List Call → List TesterState
  | [] => []
  | c :: cs => execCall s c :: statesAfter (execCall s c) cs

/-- A body log call, as a primitive call. -/
def logCallToCall (c : LogCall) : Call :=
  Call.log c.message c.type c.category c.timestamp

/-- The log entry a body log call appends. -/
def logCallEntry (c : LogCall) : LogEntry :=
  entryOf c.message c.type c.category c.timestamp

/-- The call sequence runTestWithErrorHandling(testName, testFn) performs,
in program order (see runTest_eq_runCalls). -/
def testCalls (testName : String) (b : TestBehavior) : List Call :=
  Call.current testName ::
  Call.status testName Status.running ::
  Call.log ("🔄 Starting " ++ testName ++ "...") LogType.info testName b.startTs ::
  (b.logCalls.map logCallToCall ++
    [Call.status testName (finalStatus b),
     Call.log
       (match b.outcome with
        | none => "✅ " ++ testName ++ " completed successfully!"
        | some errorMessage => "❌ Error in " ++ testName ++ ": " ++ errorMessage)
       (match b.outcome with
        | none => LogType.success
        | some _ => LogType.error)
       testName b.endTs])

/-- The hardcoded tests array of runAllTests (the Deno variant): the
declared test names, in order; the per-test runner calls are made in
this same order. -/
def denoTests : List String :=
  ["Volumes Test", "Lifecycle Test", "File Operations Test", "Exec Command Test",
   "Declarative Image Test", "Git LSP Test", "Auto Delete Test", "Charts Test",
   "Auto Archive Test", "Deno Performance Test"]

/-- The initializer tests.map of runAllTests, building one record per name
with status pending and empty logs. -/
def initResults (names : List String) : List TestResult :=
  names.map fun name => { name := name, status := Status.pending, logs := [] }

/-- One whole suite run, as runAllTests sees it: the API key read from the
environment (Deno.env.get, absent = none), the ordered tests with the
observable behavior of each body, and the timestamps of the
general-category logs of the orchestrator. -/
structure SuiteConfig where
  apiKey : Option String
  tests : List (String × TestBehavior)
  startTs : String
  keyTs : String
  endTs : String
deriving DecidableEq, Repr

/-- The declared test names of a suite run, in order. -/
def suiteNames (cfg : SuiteConfig) : List String :=
  cfg.tests.map Prod.fst

/-- The assignment this.testResults = tests.map(...) at the top of
runAllTests: the tracked collection is replaced outright. -/
def suiteInit (prior : TesterState) (names : List String) : TesterState :=
  { prior with testResults := initResults names }

/-- The call sequence runAllTests performs after initializing testResults,
in program order: the starting general log; then either (API key
present) the instance-created log followed by the calls of every test
in declared order, or (API key absent) the caught setup failure logged
once at error level and general category; and in both cases the
completion log of the finally branch.  printSummary reads but never
writes state. -/
def suiteCalls (cfg : SuiteConfig) : List Call :=
  Call.log "🚀 Starting comprehensive Daytona SDK tests for Deno..." LogType.info
      "general" cfg.startTs ::
  ((match cfg.apiKey with
    | none =>
      [Call.log "❌ Error in main execution: DAYTONA_API_KEY environment variable is required"
        LogType.error "general" cfg.keyTs]
    | some _ =>
      Call.log "Created Daytona instance" LogType.success "general" cfg.keyTs ::
      (cfg.tests.map fun p => testCalls p.1 p.2).flatten) ++
   [Call.log "🏁 All Daytona SDK tests for Deno completed!" LogType.info "general" cfg.endTs])

/-- The final state of a suite run. -/
def runAllTests (prior : TesterState) (cfg : SuiteConfig) : TesterState :=
  runCalls (suiteInit prior (suiteNames cfg)) (suiteCalls cfg)

/-- Every state observed during a suite run: the state right after
initialization, then the state after each primitive call. -/
def suiteTrace (prior : TesterState) (cfg : SuiteConfig) : List TesterState :=
  suiteInit prior (suiteNames cfg) ::
    statesAfter (suiteInit prior (suiteNames cfg)) (suiteCalls cfg)

/-- The state of a fresh DaytonaDenoTester instance, as main() constructs
it: empty logs, no tracked results, empty currentTest. -/
def freshTester : TesterState :=
  { logs := [], testResults := [], currentTest := "" }

/-- The status of the tracked test named n, or none when no tracked test
has that name. -/
def statusOf (s : TesterState) (n : String) : Option Status :=
  (s.testResults.find? fun t => t.name == n).map fun t => t.status

/-- The per-test status icon printed by printSummary. -/
def statusIcon (st : Status) : String :=
  match st with
  | Status.success => "✅"
  | Status.error => "❌"
  | _ => "⏳"

/-- What printSummary prints, as data. -/
structure Summary where
  successful : Nat
  failed : Nat
  total : Nat
  lines : List String
deriving DecidableEq, Repr

/-- The method printSummary: count success and error statuses out of the
total, and one icon line per test.  It only reads this.testResults. -/
def printSummary (testResults : List TestResult) : Summary :=
  { successful := (testResults.filter fun t => t.status == Status.success).length
    failed := (testResults.filter fun t => t.status == Status.error).length
    total := testResults.length
    lines := testResults.map fun test => statusIcon test.status ++ " " ++ test.name }

/-- The log entries a call sequence appends to the global log, in order. -/
def emitted (cs : List Call) : List LogEntry :=
  cs.filterMap fun c =>
    match c with
    | Call.log m ty cat ts => some (entryOf m ty cat ts)
    | _ => none

/-- Whether a primitive call is an updateTestStatus call aimed at n. -/
def touchesStatus (n : String) (c : Call) : Bool :=
  match c with
  | Call.status m _ => m == n
  | _ => false

/-- The starting log call of the orchestrator for one test. -/
def testStartCall (testName : String) (b : TestBehavior) : Call :=
  Call.log ("🔄 Starting " ++ testName ++ "...") LogType.info testName b.startTs

/-- The completion log message of the orchestrator for one test. -/
def testEndMessage (testName : String) (b : TestBehavior) : String :=
  match b.outcome with
  | none => "✅ " ++ testName ++ " completed successfully!"
  | some errorMessage => "❌ Error in " ++ testName ++ ": " ++ errorMessage

/-- The level of the completion log of the orchestrator. -/
def testEndType (b : TestBehavior) : LogType :=
  match b.outcome with
  | none => LogType.success
  | some _ => LogType.error

/-- The completion log call of the orchestrator for one test. -/
def testEndCall (testName : String) (b : TestBehavior) : Call :=
  Call.log (testEndMessage testName b) (testEndType b) testName b.endTs

/-- The general-category starting log call of runAllTests. -/
def suiteStartCall (cfg : SuiteConfig) : Call :=
  Call.log "🚀 Starting comprehensive Daytona SDK tests for Deno..." LogType.info
    "general" cfg.startTs

/-- The general-category log recorded after constructing the SDK client. -/
def suiteCreatedCall (cfg : SuiteConfig) : Call :=
  Call.log "Created Daytona instance" LogType.success "general" cfg.keyTs

/-- The general-category error log of the catch branch of runAllTests when
the API key is absent. -/
def suiteKeyErrorCall (cfg : SuiteConfig) : Call :=
  Call.log "❌ Error in main execution: DAYTONA_API_KEY environment variable is required"
    LogType.error "general" cfg.keyTs

/-- The general-category completion log of the finally branch. -/
def suiteEndCall (cfg : SuiteConfig) : Call :=
  Call.log "🏁 All Daytona SDK tests for Deno completed!" LogType.info "general" cfg.endTs

/-- The calls performed by a run of consecutive tests. -/
def testsCallsOf (l : List (String × TestBehavior)) : List Call :=
  (l.map fun p => testCalls p.1 p.2).flatten

/-- A body that completes normally after one log call (witness fixture). -/
def bOk : TestBehavior :=
  { logCalls := [{ message := "created volume", type := LogType.info,
                   category := "A", timestamp := "t1" }],
    outcome := none, startTs := "t0", endTs := "t2" }

/-- A body that throws with message boom (witness fixture). -/
def bBad : TestBehavior :=
  { logCalls := [], outcome := some "boom", startTs := "t3", endTs := "t4" }

/-- A two-test suite run with the API key present (witness fixture). -/
def cfgAB : SuiteConfig :=
  { apiKey := some "key", tests := [("A", bOk), ("B", bBad)],
    startTs := "s0", keyTs := "s1", endTs := "s2" }

/-- The same suite with the API key absent (witness fixture). -/
def cfgNoKey : SuiteConfig :=
  { apiKey := none, tests := [("A", bOk), ("B", bBad)],
    startTs := "s0", keyTs := "s1", endTs := "s2" }

/-- A freshly initialized two-test tracker (witness fixture). -/
def sDemo : TesterState :=
  { logs := [],
    testResults := [{ name := "A", status := Status.pending, logs := [] },
                    { name := "B", status := Status.pending, logs := [] }],
    currentTest := "" }

/-- A tracker violating name uniqueness: two results named X (witness
fixture). -/
def sDup : TesterState :=
  { logs := [],
    testResults := [{ name := "X", status := Status.pending, logs := [] },
                    { name := "X", status := Status.pending, logs := [] }],
    currentTest := "" }

/-! ### Lemmas and claim theorems -/

theorem execLogCalls_eq_runCalls (s : TesterState) (cs : List LogCall) :
    execLogCalls s cs = runCalls s (cs.map logCallToCall) := by
  induction cs generalizing s with
  | nil => rfl
  | cons c cs ih => simp [execLogCalls, runCalls, logCallToCall, execCall] at *; exact ih _

/-- The sequential statements of runTestWithErrorHandling coincide with
replaying its call script. -/
theorem runTest_eq_runCalls (s : TesterState) (testName : String) (b : TestBehavior) :
    runTestWithErrorHandling s testName b = runCalls s (testCalls testName b) := by
  cases h : b.outcome with
  | none =>
    simp [runTestWithErrorHandling, testCalls, finalStatus, h, runCalls,
      execCall, List.foldl_append, execLogCalls_eq_runCalls]
  | some e =>
    simp [runTestWithErrorHandling, testCalls, finalStatus, h, runCalls,
      execCall, List.foldl_append, execLogCalls_eq_runCalls]

theorem map_keeps_names (f : TestResult → TestResult)
    (hf : ∀ t, (f t).name = t.name) (l : List TestResult) :
    (l.map f).map (fun t => t.name) = l.map fun t => t.name := by
  induction l with
  | nil => rfl
  | cons t l ih => simp [hf, ih]

theorem find?_map_name (f : TestResult → TestResult)
    (hf : ∀ t, (f t).name = t.name) (l : List TestResult) (n : String) :
    (l.map f).find? (fun t => t.name == n)
      = (l.find? fun t => t.name == n).map f := by
  induction l with
  | nil => rfl
  | cons t l ih =>
    by_cases h : (t.name == n) = true
    · rw [List.map_cons,
        @List.find?_cons_of_pos _ (fun t => t.name == n) (f t) (l.map f)
          (by simpa [hf] using h),
        @List.find?_cons_of_pos _ (fun t => t.name == n) t l h]
      rfl
    · rw [List.map_cons,
        @List.find?_cons_of_neg _ (fun t => t.name == n) (f t) (l.map f)
          (by simpa [hf] using h),
        @List.find?_cons_of_neg _ (fun t => t.name == n) t l h, ih]

theorem addLog_keeps_name (m : String) (ty : LogType) (c ts : String)
    (t : TestResult) :
    ((fun test =>
        if test.name = c then { test with logs := test.logs ++ [entryOf m ty c ts] }
        else test) t).name = t.name := by
  dsimp only
  split <;> rfl

theorem update_keeps_name (n : String) (st : Status) (t : TestResult) :
    ((fun test => if test.name = n then { test with status := st } else test) t).name
      = t.name := by
  dsimp only
  split <;> rfl

theorem addLog_name_map (s : TesterState) (m : String) (ty : LogType)
    (c ts : String) :
    (addLog s m ty c ts).testResults.map (fun t => t.name)
      = s.testResults.map fun t => t.name := by
  simp only [addLog]
  exact map_keeps_names _ (addLog_keeps_name m ty c ts) _

theorem updateTestStatus_name_map (s : TesterState) (n : String) (st : Status) :
    (updateTestStatus s n st).testResults.map (fun t => t.name)
      = s.testResults.map fun t => t.name := by
  simp only [updateTestStatus]
  exact map_keeps_names _ (update_keeps_name n st) _

theorem execCall_name_map (s : TesterState) (c : Call) :
    (execCall s c).testResults.map (fun t => t.name)
      = s.testResults.map fun t => t.name := by
  cases c with
  | log m ty cat ts => exact addLog_name_map s m ty cat ts
  | status n st => exact updateTestStatus_name_map s n st
  | current n => rfl

theorem runCalls_name_map (s : TesterState) (cs : List Call) :
    (runCalls s cs).testResults.map (fun t => t.name)
      = s.testResults.map fun t => t.name := by
  induction cs generalizing s with
  | nil => rfl
  | cons c cs ih =>
    simp only [runCalls, List.foldl_cons] at *
    rw [ih (execCall s c), execCall_name_map]

theorem addLog_logs (s : TesterState) (m : String) (ty : LogType) (c ts : String) :
    (addLog s m ty c ts).logs = s.logs ++ [entryOf m ty c ts] := rfl

theorem statusOf_addLog (s : TesterState) (m : String) (ty : LogType)
    (c ts n : String) : statusOf (addLog s m ty c ts) n = statusOf s n := by
  simp only [statusOf, addLog]
  rw [find?_map_name _ (addLog_keeps_name m ty c ts)]
  cases h : s.testResults.find? (fun t => t.name == n) with
  | none => rfl
  | some t =>
    simp only [Option.map]
    congr 1
    dsimp only
    split <;> rfl

theorem statusOf_update_self (s : TesterState) (n : String) (st : Status) :
    statusOf (updateTestStatus s n st) n = (statusOf s n).map fun _ => st := by
  simp only [statusOf, updateTestStatus]
  rw [find?_map_name _ (update_keeps_name n st)]
  cases h : s.testResults.find? (fun t => t.name == n) with
  | none => rfl
  | some t =>
    have ht : t.name = n := by simpa using List.find?_some h
    simp only [Option.map]
    rw [if_pos ht]

theorem statusOf_update_ne (s : TesterState) (m : String) (st : Status)
    (n : String) (hnm : n ≠ m) :
    statusOf (updateTestStatus s m st) n = statusOf s n := by
  simp only [statusOf, updateTestStatus]
  rw [find?_map_name _ (update_keeps_name m st)]
  cases h : s.testResults.find? (fun t => t.name == n) with
  | none => rfl
  | some t =>
    have ht : t.name = n := by simpa using List.find?_some h
    have ht2 : ¬ t.name = m := fun hc => hnm (ht ▸ hc ▸ rfl)
    simp only [Option.map]
    rw [if_neg ht2]

theorem statusOf_current (s : TesterState) (m n : String) :
    statusOf { s with currentTest := m } n = statusOf s n := rfl

theorem statusOf_execCall_untouched (s : TesterState) (c : Call) (n : String)
    (h : touchesStatus n c = false) : statusOf (execCall s c) n = statusOf s n := by
  cases c with
  | log m ty cat ts => exact statusOf_addLog s m ty cat ts n
  | status m st =>
    have : ¬ m = n := by simpa [touchesStatus] using h
    exact statusOf_update_ne s m st n fun hc => this hc.symm
  | current m => rfl

theorem runCalls_cons (s : TesterState) (c : Call) (cs : List Call) :
    runCalls s (c :: cs) = runCalls (execCall s c) cs := rfl

theorem statusOf_runCalls_untouched (s : TesterState) (cs : List Call) (n : String)
    (h : ∀ c ∈ cs, touchesStatus n c = false) :
    statusOf (runCalls s cs) n = statusOf s n := by
  induction cs generalizing s with
  | nil => rfl
  | cons c cs ih =>
    rw [runCalls_cons, ih (execCall s c) fun c hc => h c (List.mem_cons_of_mem _ hc),
      statusOf_execCall_untouched s c n (h c (List.mem_cons_self c cs))]

theorem statesAfter_untouched_map (s : TesterState) (cs : List Call) (n : String)
    (h : ∀ c ∈ cs, touchesStatus n c = false) :
    (statesAfter s cs).map (fun t => statusOf t n)
      = List.replicate cs.length (statusOf s n) := by
  induction cs generalizing s with
  | nil => rfl
  | cons c cs ih =>
    simp only [statesAfter, List.map_cons, List.length_cons, List.replicate_succ]
    rw [statusOf_execCall_untouched s c n (h c (List.mem_cons_self c cs))]
    rw [ih (execCall s c) fun c hc => h c (List.mem_cons_of_mem _ hc)]
    rw [statusOf_execCall_untouched s c n (h c (List.mem_cons_self c cs))]

theorem runCalls_append (s : TesterState) (l1 l2 : List Call) :
    runCalls s (l1 ++ l2) = runCalls (runCalls s l1) l2 := by
  simp [runCalls, List.foldl_append]

theorem statesAfter_append (s : TesterState) (l1 l2 : List Call) :
    statesAfter s (l1 ++ l2) = statesAfter s l1 ++ statesAfter (runCalls s l1) l2 := by
  induction l1 generalizing s with
  | nil => rfl
  | cons c l1 ih =>
    show execCall s c :: statesAfter (execCall s c) (l1 ++ l2) = _
    rw [ih (execCall s c)]
    rfl

theorem statesAfter_length (s : TesterState) (cs : List Call) :
    (statesAfter s cs).length = cs.length := by
  induction cs generalizing s with
  | nil => rfl
  | cons c cs ih => simp [statesAfter, ih]

theorem emitted_append (l1 l2 : List Call) :
    emitted (l1 ++ l2) = emitted l1 ++ emitted l2 := by
  simp [emitted]

/-- The global log after a call sequence is the old log followed by the
emitted entries. -/
theorem runCalls_logs (s : TesterState) (cs : List Call) :
    (runCalls s cs).logs = s.logs ++ emitted cs := by
  induction cs generalizing s with
  | nil => simp [runCalls, emitted]
  | cons c cs ih =>
    rw [runCalls_cons, ih (execCall s c)]
    cases c with
    | log m ty cat ts => simp [execCall, addLog_logs, emitted, List.filterMap_cons]
    | status m st => simp [execCall, updateTestStatus, emitted, List.filterMap_cons]
    | current m => simp [execCall, emitted, List.filterMap_cons]

theorem find?_initResults (names : List String) (n : String) (hn : n ∈ names) :
    (initResults names).find? (fun t => t.name == n)
      = some { name := n, status := Status.pending, logs := [] } := by
  induction names with
  | nil => cases hn
  | cons m names ih =>
    by_cases h : m = n
    · simp [initResults, List.find?_cons, h]
    · rcases List.mem_cons.1 hn with h1 | h1
      · exact absurd h1.symm h
      · have := ih h1
        simp only [initResults, List.map_cons] at *
        rw [List.find?_cons_of_neg _ (by simpa using h)]
        exact this

theorem statusOf_suiteInit (prior : TesterState) (names : List String) (n : String)
    (hn : n ∈ names) : statusOf (suiteInit prior names) n = some Status.pending := by
  simp [statusOf, suiteInit, find?_initResults names n hn]

theorem testCalls_decomp (testName : String) (b : TestBehavior) :
    testCalls testName b
      = [Call.current testName, Call.status testName Status.running,
         testStartCall testName b]
        ++ (b.logCalls.map logCallToCall
            ++ [Call.status testName (finalStatus b), testEndCall testName b]) := by
  cases h : b.outcome <;>
    simp [testCalls, testStartCall, testEndCall, testEndMessage, testEndType, h]

theorem body_untouched (n : String) (cs : List LogCall) :
    ∀ c ∈ cs.map logCallToCall, touchesStatus n c = false := by
  intro c hc
  rcases List.mem_map.1 hc with ⟨lc, _, rfl⟩
  rfl

theorem testCalls_untouched (m n : String) (b : TestBehavior) (h : m ≠ n) :
    ∀ c ∈ testCalls m b, touchesStatus n c = false := by
  intro c hc
  rw [testCalls_decomp] at hc
  simp only [List.cons_append, List.nil_append, List.mem_cons, List.mem_append] at hc
  rcases hc with rfl | rfl | rfl | hc
  · rfl
  · simp [touchesStatus, h]
  · rfl
  rcases hc with hc | hc
  · exact body_untouched n b.logCalls c hc
  simp only [List.mem_cons, List.not_mem_nil, or_false] at hc
  rcases hc with rfl | rfl
  · simp [touchesStatus, h]
  · rfl

theorem flatten_untouched (n : String) (tests : List (String × TestBehavior))
    (h : ∀ p ∈ tests, p.1 ≠ n) :
    ∀ c ∈ (tests.map fun p => testCalls p.1 p.2).flatten,
      touchesStatus n c = false := by
  intro c hc
  rcases List.mem_flatten.1 hc with ⟨l, hl, hcl⟩
  rcases List.mem_map.1 hl with ⟨p, hp, rfl⟩
  exact testCalls_untouched p.1 n p.2 (h p hp) c hcl

theorem seg_statusTrace (s : TesterState) (n : String) (cs : List Call)
    (hcs : ∀ c ∈ cs, touchesStatus n c = false) (fin : Status) (c2 : Call)
    (hc2 : touchesStatus n c2 = false) :
    (statesAfter s (cs ++ [Call.status n fin, c2])).map (fun t => statusOf t n)
      = List.replicate cs.length (statusOf s n)
        ++ [(statusOf s n).map fun _ => fin, (statusOf s n).map fun _ => fin] := by
  rw [statesAfter_append, List.map_append, statesAfter_untouched_map s cs n hcs]
  congr 1
  have hmid := statusOf_runCalls_untouched s cs n hcs
  have ha : statusOf (execCall (runCalls s cs) (Call.status n fin)) n
      = (statusOf s n).map fun _ => fin := by
    show statusOf (updateTestStatus _ n fin) n = _
    rw [statusOf_update_self, hmid]
  have hb : statusOf (execCall (execCall (runCalls s cs) (Call.status n fin)) c2) n
      = (statusOf s n).map fun _ => fin := by
    rw [statusOf_execCall_untouched _ c2 n hc2, ha]
  simp only [statesAfter, List.map_cons, List.map_nil, ha, hb]

theorem testCalls_statusTrace (s : TesterState) (n : String) (b : TestBehavior)
    (st0 : Status) (h : statusOf s n = some st0) :
    (statesAfter s (testCalls n b)).map (fun t => statusOf t n)
      = some st0 :: (List.replicate (b.logCalls.length + 2) (some Status.running)
          ++ List.replicate 2 (some (finalStatus b))) := by
  have t1 : statusOf (execCall s (Call.current n)) n = some st0 := by
    rw [statusOf_execCall_untouched s (Call.current n) n rfl, h]
  have t2 : statusOf (execCall (execCall s (Call.current n))
      (Call.status n Status.running)) n = some Status.running := by
    show statusOf (updateTestStatus _ n Status.running) n = _
    rw [statusOf_update_self, t1]
    rfl
  have t3 : statusOf (execCall (execCall (execCall s (Call.current n))
      (Call.status n Status.running)) (testStartCall n b)) n = some Status.running := by
    rw [statusOf_execCall_untouched _ (testStartCall n b) n rfl, t2]
  rw [testCalls_decomp, statesAfter_append, List.map_append]
  have hseg := seg_statusTrace
    (execCall (execCall (execCall s (Call.current n)) (Call.status n Status.running))
      (testStartCall n b))
    n (b.logCalls.map logCallToCall) (body_untouched n b.logCalls)
    (finalStatus b) (testEndCall n b) rfl
  rw [show runCalls s [Call.current n, Call.status n Status.running, testStartCall n b]
      = execCall (execCall (execCall s (Call.current n)) (Call.status n Status.running))
          (testStartCall n b) from rfl]
  rw [hseg, t3]
  simp only [statesAfter, List.map_cons, List.map_nil, t1, t2, t3, List.length_map]
  simp [List.replicate_succ]

theorem statusOf_runCalls_testCalls (s : TesterState) (n : String) (b : TestBehavior) :
    statusOf (runCalls s (testCalls n b)) n
      = (statusOf s n).map fun _ => finalStatus b := by
  rw [testCalls_decomp, runCalls_append, runCalls_append]
  have t2 : statusOf (runCalls s [Call.current n, Call.status n Status.running,
      testStartCall n b]) n = (statusOf s n).map fun _ => Status.running := by
    rw [show runCalls s [Call.current n, Call.status n Status.running, testStartCall n b]
        = execCall (execCall (execCall s (Call.current n)) (Call.status n Status.running))
            (testStartCall n b) from rfl]
    rw [statusOf_execCall_untouched _ (testStartCall n b) n rfl]
    show statusOf (updateTestStatus _ n Status.running) n = _
    rw [statusOf_update_self, statusOf_execCall_untouched s (Call.current n) n rfl]
  have t4 : statusOf (runCalls (runCalls s [Call.current n, Call.status n Status.running,
      testStartCall n b]) (b.logCalls.map logCallToCall)) n
      = (statusOf s n).map fun _ => Status.running := by
    rw [statusOf_runCalls_untouched _ _ n (body_untouched n b.logCalls), t2]
  rw [show runCalls (runCalls (runCalls s [Call.current n, Call.status n Status.running,
      testStartCall n b]) (b.logCalls.map logCallToCall))
        [Call.status n (finalStatus b), testEndCall n b]
      = execCall (execCall (runCalls (runCalls s [Call.current n, Call.status n
          Status.running, testStartCall n b]) (b.logCalls.map logCallToCall))
          (Call.status n (finalStatus b))) (testEndCall n b) from rfl]
  rw [statusOf_execCall_untouched _ (testEndCall n b) n rfl]
  show statusOf (updateTestStatus _ n (finalStatus b)) n = _
  rw [statusOf_update_self, t4, Option.map_map]
  rfl

theorem suiteCalls_some (cfg : SuiteConfig) (key : String)
    (hkey : cfg.apiKey = some key) :
    suiteCalls cfg
      = suiteStartCall cfg :: suiteCreatedCall cfg ::
          (testsCallsOf cfg.tests ++ [suiteEndCall cfg]) := by
  simp [suiteCalls, hkey, suiteStartCall, suiteCreatedCall, suiteEndCall, testsCallsOf]

theorem suiteCalls_none (cfg : SuiteConfig) (hkey : cfg.apiKey = none) :
    suiteCalls cfg
      = [suiteStartCall cfg, suiteKeyErrorCall cfg, suiteEndCall cfg] := by
  simp [suiteCalls, hkey, suiteStartCall, suiteKeyErrorCall, suiteEndCall]

theorem testsCallsOf_append (l1 l2 : List (String × TestBehavior)) :
    testsCallsOf (l1 ++ l2) = testsCallsOf l1 ++ testsCallsOf l2 := by
  simp [testsCallsOf]

theorem testsCallsOf_cons (p : String × TestBehavior) (l : List (String × TestBehavior)) :
    testsCallsOf (p :: l) = testCalls p.1 p.2 ++ testsCallsOf l := by
  simp [testsCallsOf]

theorem suiteCalls_decomp (cfg : SuiteConfig) (key : String)
    (hkey : cfg.apiKey = some key) (l1 l2 : List (String × TestBehavior))
    (n : String) (b : TestBehavior) (hsplit : cfg.tests = l1 ++ (n, b) :: l2) :
    suiteCalls cfg
      = (suiteStartCall cfg :: suiteCreatedCall cfg :: testsCallsOf l1)
        ++ (testCalls n b ++ (testsCallsOf l2 ++ [suiteEndCall cfg])) := by
  rw [suiteCalls_some cfg key hkey, hsplit, testsCallsOf_append, testsCallsOf_cons]
  simp

theorem split_names (l1 l2 : List (String × TestBehavior)) (n : String)
    (b : TestBehavior) (hnd : ((l1 ++ (n, b) :: l2).map Prod.fst).Nodup) :
    (∀ p ∈ l1, p.1 ≠ n) ∧ ∀ p ∈ l2, p.1 ≠ n := by
  rw [List.map_append, List.map_cons] at hnd
  have hD := List.nodup_append.1 hnd
  constructor
  · intro p hp hc
    exact (hD.2.2 (List.mem_map.2 ⟨p, hp, hc⟩)) (List.mem_cons_self _ _)
  · intro p hp hc
    exact (List.nodup_cons.1 hD.2.1).1 (List.mem_map.2 ⟨p, hp, hc⟩)

theorem pre_untouched (cfg : SuiteConfig) (l1 : List (String × TestBehavior))
    (n : String) (hl1 : ∀ p ∈ l1, p.1 ≠ n) :
    ∀ c ∈ suiteStartCall cfg :: suiteCreatedCall cfg :: testsCallsOf l1,
      touchesStatus n c = false := by
  intro c hc
  rcases List.mem_cons.1 hc with rfl | hc
  · rfl
  rcases List.mem_cons.1 hc with rfl | hc
  · rfl
  exact flatten_untouched n l1 hl1 c hc

theorem post_untouched (cfg : SuiteConfig) (l2 : List (String × TestBehavior))
    (n : String) (hl2 : ∀ p ∈ l2, p.1 ≠ n) :
    ∀ c ∈ testsCallsOf l2 ++ [suiteEndCall cfg], touchesStatus n c = false := by
  intro c hc
  rcases List.mem_append.1 hc with hc | hc
  · exact flatten_untouched n l2 hl2 c hc
  · rcases List.mem_singleton.1 hc with rfl
    rfl

theorem replicate_append_cons {α : Type} (L : Nat) (x : α) (rest : List α) :
    List.replicate L x ++ x :: rest = x :: (List.replicate L x ++ rest) := by
  induction L with
  | zero => rfl
  | succ L ih => simp [List.replicate_succ, ih]

/-- The status observations of one declared test across a whole suite run
with the API key present: a nonempty block of pending, then a nonempty
block of running, then a nonempty block of the terminal status of the
test. -/
theorem suite_statusTrace_split (prior : TesterState) (cfg : SuiteConfig)
    (key : String) (hkey : cfg.apiKey = some key)
    (l1 l2 : List (String × TestBehavior)) (n : String) (b : TestBehavior)
    (hsplit : cfg.tests = l1 ++ (n, b) :: l2)
    (hnd : (cfg.tests.map Prod.fst).Nodup) :
    (suiteTrace prior cfg).map (fun t => statusOf t n)
      = List.replicate ((suiteStartCall cfg :: suiteCreatedCall cfg ::
            testsCallsOf l1).length + 2) (some Status.pending)
        ++ List.replicate (b.logCalls.length + 2) (some Status.running)
        ++ List.replicate ((testsCallsOf l2 ++ [suiteEndCall cfg]).length + 2)
            (some (finalStatus b)) := by
  obtain ⟨hl1, hl2⟩ := split_names l1 l2 n b (hsplit ▸ hnd)
  have hpreU := pre_untouched cfg l1 n hl1
  have hpostU := post_untouched cfg l2 n hl2
  have hnmem : n ∈ suiteNames cfg := by
    rw [suiteNames, hsplit]
    simp
  have hs0 : statusOf (suiteInit prior (suiteNames cfg)) n = some Status.pending :=
    statusOf_suiteInit prior (suiteNames cfg) n hnmem
  have hsP : statusOf (runCalls (suiteInit prior (suiteNames cfg))
      (suiteStartCall cfg :: suiteCreatedCall cfg :: testsCallsOf l1)) n
      = some Status.pending := by
    rw [statusOf_runCalls_untouched _ _ n hpreU, hs0]
  have hsM : statusOf (runCalls (runCalls (suiteInit prior (suiteNames cfg))
      (suiteStartCall cfg :: suiteCreatedCall cfg :: testsCallsOf l1))
      (testCalls n b)) n = some (finalStatus b) := by
    rw [statusOf_runCalls_testCalls, hsP]
    rfl
  rw [suiteTrace, suiteCalls_decomp cfg key hkey l1 l2 n b hsplit,
    statesAfter_append, statesAfter_append, List.map_cons, List.map_append,
    List.map_append, hs0,
    statesAfter_untouched_map _ _ n hpreU, hs0,
    testCalls_statusTrace _ n b Status.pending hsP,
    statesAfter_untouched_map _ _ n hpostU, hsM]
  simp only [List.replicate_add, List.replicate_succ, List.replicate_zero,
    List.append_assoc, List.cons_append, List.nil_append, List.length_cons,
    List.singleton_append]
  rw [replicate_append_cons]

/-- The terminal status of one declared test at the end of a full suite
run with the API key present. -/
theorem suite_final_statusOf (prior : TesterState) (cfg : SuiteConfig)
    (key : String) (hkey : cfg.apiKey = some key)
    (l1 l2 : List (String × TestBehavior)) (n : String) (b : TestBehavior)
    (hsplit : cfg.tests = l1 ++ (n, b) :: l2)
    (hnd : (cfg.tests.map Prod.fst).Nodup) :
    statusOf (runAllTests prior cfg) n = some (finalStatus b) := by
  obtain ⟨hl1, hl2⟩ := split_names l1 l2 n b (hsplit ▸ hnd)
  have hnmem : n ∈ suiteNames cfg := by
    rw [suiteNames, hsplit]
    simp
  rw [runAllTests, suiteCalls_decomp cfg key hkey l1 l2 n b hsplit,
    runCalls_append, runCalls_append,
    statusOf_runCalls_untouched _ _ n (post_untouched cfg l2 n hl2),
    statusOf_runCalls_testCalls,
    statusOf_runCalls_untouched _ _ n (pre_untouched cfg l1 n hl1),
    statusOf_suiteInit prior (suiteNames cfg) n hnmem]
  rfl

/-- During a full suite run with the API key present, every declared test
is observed with status running at some point of the trace. -/
theorem suite_reaches_running (prior : TesterState) (cfg : SuiteConfig)
    (key : String) (hkey : cfg.apiKey = some key)
    (hnd : (cfg.tests.map Prod.fst).Nodup) (nb : String × TestBehavior)
    (hmem : nb ∈ cfg.tests) :
    ∃ t ∈ suiteTrace prior cfg, statusOf t nb.1 = some Status.running := by
  obtain ⟨l1, l2, hsplit⟩ := List.append_of_mem hmem
  have heq := suite_statusTrace_split prior cfg key hkey l1 l2 nb.1 nb.2 hsplit hnd
  have hmemb : some Status.running
      ∈ (suiteTrace prior cfg).map (fun t => statusOf t nb.1) := by
    rw [heq]
    refine List.mem_append.2 (Or.inl (List.mem_append.2 (Or.inr ?_)))
    simp [List.mem_replicate]
  rcases List.mem_map.1 hmemb with ⟨t, ht, hst⟩
  exact ⟨t, ht, hst⟩

theorem emitted_mem (cs : List Call) (m : String) (ty : LogType) (c ts : String)
    (h : Call.log m ty c ts ∈ cs) : entryOf m ty c ts ∈ emitted cs := by
  simp only [emitted, List.mem_filterMap]
  exact ⟨Call.log m ty c ts, h, rfl⟩

/-- When a test body throws, the final global log of the suite contains
the error entry of the orchestrator carrying the failure detail. -/
theorem suite_error_log_mem (prior : TesterState) (cfg : SuiteConfig)
    (key : String) (hkey : cfg.apiKey = some key)
    (l1 l2 : List (String × TestBehavior)) (n : String) (b : TestBehavior)
    (hsplit : cfg.tests = l1 ++ (n, b) :: l2) (msg : String)
    (houtcome : b.outcome = some msg) :
    entryOf ("❌ Error in " ++ n ++ ": " ++ msg) LogType.error n b.endTs
      ∈ (runAllTests prior cfg).logs := by
  have hcall : testEndCall n b ∈ suiteCalls cfg := by
    rw [suiteCalls_decomp cfg key hkey l1 l2 n b hsplit, testCalls_decomp]
    simp
  have hform : testEndCall n b
      = Call.log ("❌ Error in " ++ n ++ ": " ++ msg) LogType.error n b.endTs := by
    simp [testEndCall, testEndMessage, testEndType, houtcome]
  rw [runAllTests, runCalls_logs]
  exact List.mem_append_right _ (emitted_mem _ _ _ _ _ (hform ▸ hcall))

theorem addLog_results_length (s : TesterState) (m : String) (ty : LogType)
    (c ts : String) :
    (addLog s m ty c ts).testResults.length = s.testResults.length := by
  simp [addLog]

theorem update_results_length (s : TesterState) (n : String) (st : Status) :
    (updateTestStatus s n st).testResults.length = s.testResults.length := by
  simp [updateTestStatus]

theorem execCall_results_length (s : TesterState) (c : Call) :
    (execCall s c).testResults.length = s.testResults.length := by
  cases c with
  | log m ty cat ts => exact addLog_results_length s m ty cat ts
  | status n st => exact update_results_length s n st
  | current n => rfl

theorem addLog_nth (s : TesterState) (m : String) (ty : LogType) (c ts : String)
    (i : Nat) (h : i < s.testResults.length)
    (h' : i < (addLog s m ty c ts).testResults.length) :
    (addLog s m ty c ts).testResults[i]
      = if (s.testResults[i]).name = c
        then { s.testResults[i] with
               logs := (s.testResults[i]).logs ++ [entryOf m ty c ts] }
        else s.testResults[i] := by
  simp [addLog, List.getElem_map]

theorem update_nth (s : TesterState) (n : String) (st : Status) (i : Nat)
    (h : i < s.testResults.length)
    (h' : i < (updateTestStatus s n st).testResults.length) :
    (updateTestStatus s n st).testResults[i]
      = if (s.testResults[i]).name = n
        then { s.testResults[i] with status := st }
        else s.testResults[i] := by
  simp [updateTestStatus, List.getElem_map]

theorem map_eq_self_of (l : List TestResult) (f : TestResult → TestResult)
    (h : ∀ t ∈ l, f t = t) : l.map f = l := by
  induction l with
  | nil => rfl
  | cons t l ih =>
    rw [List.map_cons, h t (List.mem_cons_self t l),
      ih fun t ht => h t (List.mem_cons_of_mem _ ht)]

theorem addLog_no_match (s : TesterState) (m : String) (ty : LogType)
    (c ts : String) (h : ∀ t ∈ s.testResults, t.name ≠ c) :
    (addLog s m ty c ts).testResults = s.testResults := by
  simp only [addLog]
  exact map_eq_self_of _ _ fun t ht => if_neg (h t ht)

theorem update_no_match (s : TesterState) (n : String) (st : Status)
    (h : ∀ t ∈ s.testResults, t.name ≠ n) :
    (updateTestStatus s n st).testResults = s.testResults := by
  simp only [updateTestStatus]
  exact map_eq_self_of _ _ fun t ht => if_neg (h t ht)

theorem execCall_nth_name (s : TesterState) (c : Call) (i : Nat)
    (h : i < s.testResults.length) (h' : i < (execCall s c).testResults.length) :
    (execCall s c).testResults[i].name = s.testResults[i].name := by
  cases c with
  | log m ty cat ts =>
    have h2 : i < (addLog s m ty cat ts).testResults.length := h'
    show (addLog s m ty cat ts).testResults[i].name = s.testResults[i].name
    rw [addLog_nth s m ty cat ts i h h2]
    split <;> rfl
  | status n st =>
    have h2 : i < (updateTestStatus s n st).testResults.length := h'
    show (updateTestStatus s n st).testResults[i].name = s.testResults[i].name
    rw [update_nth s n st i h h2]
    split <;> rfl
  | current n => rfl

theorem execCall_nth_logs (s : TesterState) (c : Call) (i : Nat)
    (h : i < s.testResults.length) (h' : i < (execCall s c).testResults.length) :
    (execCall s c).testResults[i].logs
      = s.testResults[i].logs
        ++ (emitted [c]).filter fun e => e.category == s.testResults[i].name := by
  cases c with
  | log m ty cat ts =>
    have h2 : i < (addLog s m ty cat ts).testResults.length := h'
    show (addLog s m ty cat ts).testResults[i].logs = _
    rw [addLog_nth s m ty cat ts i h h2]
    by_cases hname : (s.testResults[i]).name = cat
    · simp [hname, emitted, List.filterMap_cons, List.filter, entryOf]
    · have : ((entryOf m ty cat ts).category == (s.testResults[i]).name) = false := by
        simp [entryOf]
        exact fun hc => hname hc.symm
      simp [hname, emitted, List.filterMap_cons, List.filter, this]
  | status n st =>
    have h2 : i < (updateTestStatus s n st).testResults.length := h'
    show (updateTestStatus s n st).testResults[i].logs = _
    rw [update_nth s n st i h h2]
    split <;> simp [emitted]
  | current n => simp [execCall, emitted]

/-- Across any call sequence, the logs of each tracked test grow by
exactly the emitted entries whose category equals the name of that
test, appended in emission order. -/
theorem runCalls_nth_logs (s : TesterState) (cs : List Call) (i : Nat)
    (h : i < s.testResults.length) :
    ∀ h' : i < (runCalls s cs).testResults.length,
      (runCalls s cs).testResults[i].logs
        = s.testResults[i].logs
          ++ (emitted cs).filter fun e => e.category == s.testResults[i].name := by
  induction cs generalizing s with
  | nil =>
    intro h'
    simp [runCalls, emitted]
  | cons c cs ih =>
    intro h'
    have hlen : i < (execCall s c).testResults.length := by
      rw [execCall_results_length]
      exact h
    have h'2 : i < (runCalls (execCall s c) cs).testResults.length := by
      rw [show runCalls s (c :: cs) = runCalls (execCall s c) cs from rfl] at h'
      exact h'
    have hsplit1 : emitted (c :: cs) = emitted [c] ++ emitted cs := by
      cases c <;> simp [emitted, List.filterMap_cons]
    show (runCalls (execCall s c) cs).testResults[i].logs = _
    rw [ih (execCall s c) hlen h'2,
      execCall_nth_logs s c i h hlen, execCall_nth_name s c i h hlen, hsplit1]
    rw [List.filter_append, List.append_assoc]

theorem addLog_all_pending (s : TesterState) (m : String) (ty : LogType)
    (c ts : String) (h : ∀ r ∈ s.testResults, r.status = Status.pending) :
    ∀ r ∈ (addLog s m ty c ts).testResults, r.status = Status.pending := by
  intro r' hr'
  rcases List.mem_map.1 hr' with ⟨r, hr, rfl⟩
  have hs := h r hr
  split
  · exact hs
  · exact hs

theorem initResults_all_pending (names : List String) :
    ∀ r ∈ initResults names, r.status = Status.pending := by
  intro r hr
  rcases List.mem_map.1 hr with ⟨m, _, rfl⟩
  rfl

theorem initResults_all_empty_logs (names : List String) :
    ∀ r ∈ initResults names, r.logs = [] := by
  intro r hr
  rcases List.mem_map.1 hr with ⟨m, _, rfl⟩
  rfl

theorem initResults_names (names : List String) :
    (initResults names).map (fun t => t.name) = names := by
  induction names with
  | nil => rfl
  | cons m names ih => simp [initResults, List.map_cons] at *; exact ih

theorem statesAfter_names (s : TesterState) (cs : List Call) :
    ∀ t ∈ statesAfter s cs,
      t.testResults.map (fun r => r.name) = s.testResults.map fun r => r.name := by
  induction cs generalizing s with
  | nil => intro t ht; cases ht
  | cons c cs ih =>
    intro t ht
    rcases List.mem_cons.1 ht with rfl | ht
    · exact execCall_name_map s c
    · rw [ih (execCall s c) t ht, execCall_name_map]

theorem emitted_body (cs : List LogCall) :
    emitted (cs.map logCallToCall) = cs.map logCallEntry := by
  induction cs with
  | nil => rfl
  | cons c cs ih =>
    simp [emitted, logCallToCall, logCallEntry, List.filterMap_cons] at *
    exact ih

theorem emitted_cons (c : Call) (cs : List Call) :
    emitted (c :: cs) = emitted [c] ++ emitted cs := by
  cases c <;> simp [emitted, List.filterMap_cons]

theorem summary_le_aux (rs : List TestResult) :
    (rs.filter fun t => t.status == Status.success).length
      + (rs.filter fun t => t.status == Status.error).length ≤ rs.length := by
  induction rs with
  | nil => simp
  | cons t l ih =>
    rw [List.filter_cons, List.filter_cons]
    cases ht : t.status <;> simp [ht] <;> omega

theorem summary_eq_aux (rs : List TestResult)
    (hall : ∀ t ∈ rs, t.status = Status.success ∨ t.status = Status.error) :
    (rs.filter fun t => t.status == Status.success).length
      + (rs.filter fun t => t.status == Status.error).length = rs.length := by
  induction rs with
  | nil => simp
  | cons t l ih =>
    have ht := hall t (List.mem_cons_self t l)
    have ihl := ih fun t' ht' => hall t' (List.mem_cons_of_mem _ ht')
    rw [List.filter_cons, List.filter_cons]
    rcases ht with ht | ht <;> simp [ht] <;> omega

/-- C3: every log call appends exactly one entry carrying its level,
message and category to the global sequence, and appends the same entry
to the logs of a tracked TestResult precisely when the name of that
result equals the category of the entry; when no tracked test bears the
category (for example NoSuchTest), the tracked collection is left
entirely unchanged. -/
theorem c3_log_routing (s : TesterState) (m : String) (ty : LogType) (c ts : String) :
    (addLog s m ty c ts).logs = s.logs ++ [entryOf m ty c ts]
    ∧ (addLog s m ty c ts).testResults.length = s.testResults.length
    ∧ (∀ (i : Nat) (h : i < s.testResults.length)
        (h' : i < (addLog s m ty c ts).testResults.length),
        (addLog s m ty c ts).testResults[i].name = s.testResults[i].name
        ∧ (addLog s m ty c ts).testResults[i].status = s.testResults[i].status
        ∧ (addLog s m ty c ts).testResults[i].logs
          = if s.testResults[i].name = c
            then s.testResults[i].logs ++ [entryOf m ty c ts]
            else s.testResults[i].logs)
    ∧ ((∀ t ∈ s.testResults, t.name ≠ c) →
        (addLog s m ty c ts).testResults = s.testResults) := by
  refine ⟨addLog_logs s m ty c ts, addLog_results_length s m ty c ts, ?_,
    addLog_no_match s m ty c ts⟩
  intro i h h'
  rw [addLog_nth s m ty c ts i h h']
  by_cases hn : s.testResults[i].name = c <;> simp [hn]

/-- C3 witness: a log with category NoSuchTest leaves every tracked result
unchanged. -/
theorem c3_witness :
    (addLog sDemo "hello" LogType.info "NoSuchTest" "ts").testResults
      = sDemo.testResults :=
  (c3_log_routing sDemo "hello" LogType.info "NoSuchTest" "ts").2.2.2 (by decide)

/-- C9: updateTestStatus changes at most the status field of results whose
name matches: the global log, currentTest, the name and logs of every
result, and every differently-named result are untouched, and a name
matching no tracked result leaves the collection unchanged. -/
theorem c9_update_status_frame (s : TesterState) (n : String) (st : Status) :
    (updateTestStatus s n st).logs = s.logs
    ∧ (updateTestStatus s n st).currentTest = s.currentTest
    ∧ (updateTestStatus s n st).testResults.length = s.testResults.length
    ∧ (∀ (i : Nat) (h : i < s.testResults.length)
        (h' : i < (updateTestStatus s n st).testResults.length),
        (updateTestStatus s n st).testResults[i].name = s.testResults[i].name
        ∧ (updateTestStatus s n st).testResults[i].logs = s.testResults[i].logs
        ∧ (s.testResults[i].name ≠ n →
            (updateTestStatus s n st).testResults[i] = s.testResults[i])
        ∧ (s.testResults[i].name = n →
            (updateTestStatus s n st).testResults[i].status = st))
    ∧ ((∀ t ∈ s.testResults, t.name ≠ n) →
        (updateTestStatus s n st).testResults = s.testResults) := by
  refine ⟨rfl, rfl, update_results_length s n st, ?_, update_no_match s n st⟩
  intro i h h'
  rw [update_nth s n st i h h']
  by_cases hn : s.testResults[i].name = n <;> simp [hn]

/-- C9 witness: updating a name that is not tracked leaves the tracked
collection unchanged. -/
theorem c9_witness :
    (updateTestStatus sDemo "Z" Status.error).testResults = sDemo.testResults :=
  (c9_update_status_frame sDemo "Z" Status.error).2.2.2.2 (by decide)

/-- C10: when several tracked results share a name, a log call with that
name as category appends the entry to the logs of every matching
result, and updateTestStatus with that name sets the status of every
matching result, not just the first match. -/
theorem c10_duplicate_names_all (s : TesterState) (m : String) (ty : LogType)
    (c ts : String) (st : Status) (i : Nat) (h : i < s.testResults.length)
    (h1 : i < (addLog s m ty c ts).testResults.length)
    (h2 : i < (updateTestStatus s c st).testResults.length)
    (hname : s.testResults[i].name = c) :
    (addLog s m ty c ts).testResults[i].logs
      = s.testResults[i].logs ++ [entryOf m ty c ts]
    ∧ (updateTestStatus s c st).testResults[i].status = st := by
  constructor
  · rw [addLog_nth s m ty c ts i h h1, if_pos hname]
  · rw [update_nth s c st i h h2, if_pos hname]

/-- C10 witness: with two results both named X, the second (non-first)
match also gets its status set. -/
theorem c10_witness :
    ((updateTestStatus sDup "X" Status.running).testResults.get
        ⟨1, by decide⟩).status = Status.running := by
  have hres := (c10_duplicate_names_all sDup "m" LogType.info "X" "t"
    Status.running 1 (by decide) (by decide) (by decide) (by decide)).2
  simpa using hres

/-- C6: the summary printer computes successful as the count of success
statuses and failed as the count of error statuses out of the total,
these always satisfy successful + failed at most total, and they sum to
total exactly when every test reached a terminal state. -/
theorem c6_summary_counts (rs : List TestResult) :
    (printSummary rs).successful + (printSummary rs).failed ≤ (printSummary rs).total
    ∧ ((∀ t ∈ rs, t.status = Status.success ∨ t.status = Status.error) →
        (printSummary rs).successful + (printSummary rs).failed
          = (printSummary rs).total) := by
  constructor
  · simpa [printSummary] using summary_le_aux rs
  · intro hall
    simpa [printSummary] using summary_eq_aux rs hall

/-- C6 witness: on a completed two-test snapshot the counts sum to the
total. -/
theorem c6_witness :
    (printSummary [{ name := "A", status := Status.success, logs := [] },
                   { name := "B", status := Status.error, logs := [] }]).successful
      + (printSummary [{ name := "A", status := Status.success, logs := [] },
                       { name := "B", status := Status.error, logs := [] }]).failed
      = (printSummary [{ name := "A", status := Status.success, logs := [] },
                       { name := "B", status := Status.error, logs := [] }]).total :=
  (c6_summary_counts _).2 (by decide)

/-- C8: across any sequence of harness calls the global log only grows,
the new log being the old log followed by the emitted entries in
emission order, so earlier entries keep their positions and relative
order; and the logs of each tracked test grow by exactly the emitted
entries bearing its name, in that same order. -/
theorem c8_logs_append_only (s : TesterState) (cs : List Call) (i : Nat)
    (h : i < s.testResults.length)
    (h' : i < (runCalls s cs).testResults.length) :
    (runCalls s cs).logs = s.logs ++ emitted cs
    ∧ (runCalls s cs).testResults.length = s.testResults.length
    ∧ (runCalls s cs).testResults[i].logs
      = s.testResults[i].logs
        ++ (emitted cs).filter fun e => e.category == s.testResults[i].name := by
  refine ⟨runCalls_logs s cs, ?_, runCalls_nth_logs s cs i h h'⟩
  have := congrArg List.length (runCalls_name_map s cs)
  simpa using this

/-- C8 witness: one emitted entry lands appended at the end of the global
sequence. -/
theorem c8_witness :
    (runCalls sDemo [Call.log "x" LogType.info "A" "t"]).logs
      = sDemo.logs ++ emitted [Call.log "x" LogType.info "A" "t"] :=
  (c8_logs_append_only sDemo [Call.log "x" LogType.info "A" "t"] 0
    (by decide) (by decide)).1

/-- C1: in any suite run with the API key present, a test whose body
throws ends with status error, the global log contains an error-level
entry in the category of that test whose message carries the failure
detail, and the failure is contained: every declared test is still
observed at status running during the run. -/
theorem c1_error_contained (prior : TesterState) (cfg : SuiteConfig)
    (key : String) (hkey : cfg.apiKey = some key)
    (hnd : (cfg.tests.map Prod.fst).Nodup)
    (nb : String × TestBehavior) (hmem : nb ∈ cfg.tests)
    (msg : String) (houtcome : nb.2.outcome = some msg) :
    statusOf (runAllTests prior cfg) nb.1 = some Status.error
    ∧ (∃ e ∈ (runAllTests prior cfg).logs,
        e.type = LogType.error ∧ e.category = nb.1 ∧ ∃ p, e.message = p ++ msg)
    ∧ ∀ mb ∈ cfg.tests, ∃ t ∈ suiteTrace prior cfg,
        statusOf t mb.1 = some Status.running := by
  obtain ⟨l1, l2, hsplit⟩ := List.append_of_mem hmem
  refine ⟨?_, ?_, ?_⟩
  · have hfin := suite_final_statusOf prior cfg key hkey l1 l2 nb.1 nb.2 hsplit hnd
    rw [hfin]
    simp [finalStatus, houtcome]
  · exact ⟨entryOf ("❌ Error in " ++ nb.1 ++ ": " ++ msg) LogType.error nb.1 nb.2.endTs,
      suite_error_log_mem prior cfg key hkey l1 l2 nb.1 nb.2 hsplit msg houtcome,
      rfl, rfl, "❌ Error in " ++ nb.1 ++ ": ", rfl⟩
  · intro mb hmb
    exact suite_reaches_running prior cfg key hkey hnd mb hmb

/-- C1 witness: in the two-test fixture, the throwing test B ends in
status error. -/
theorem c1_witness : statusOf (runAllTests freshTester cfgAB) "B" = some Status.error :=
  (c1_error_contained freshTester cfgAB "key" rfl (by decide) ("B", bBad)
    (by decide) "boom" rfl).1

/-- C2: within one suite run, the status observations of any declared test
form a block of pending, then a block of running, then a block of its
terminal status (success or error): the test starts at pending, never
skips running (a nonempty terminal block forces a nonempty running
block), never revisits pending, never re-enters running after the
terminal state, and when the API key is present it does reach running
and a terminal status. -/
theorem c2_status_block_sequence (prior : TesterState) (cfg : SuiteConfig)
    (hnd : (cfg.tests.map Prod.fst).Nodup)
    (nb : String × TestBehavior) (hmem : nb ∈ cfg.tests) :
    (finalStatus nb.2 = Status.success ∨ finalStatus nb.2 = Status.error)
    ∧ ∃ a b c : Nat, 1 ≤ a ∧ (b = 0 → c = 0)
        ∧ (cfg.apiKey.isSome → 1 ≤ b ∧ 1 ≤ c)
        ∧ (suiteTrace prior cfg).map (fun t => statusOf t nb.1)
          = List.replicate a (some Status.pending)
            ++ List.replicate b (some Status.running)
            ++ List.replicate c (some (finalStatus nb.2)) := by
  constructor
  · cases h : nb.2.outcome <;> simp [finalStatus, h]
  cases hkey : cfg.apiKey with
  | none =>
    have hnmem : nb.1 ∈ suiteNames cfg := List.mem_map.2 ⟨nb, hmem, rfl⟩
    have hs0 := statusOf_suiteInit prior (suiteNames cfg) nb.1 hnmem
    have hU : ∀ c ∈ suiteCalls cfg, touchesStatus nb.1 c = false := by
      rw [suiteCalls_none cfg hkey]
      intro c hc
      rcases List.mem_cons.1 hc with rfl | hc
      · rfl
      rcases List.mem_cons.1 hc with rfl | hc
      · rfl
      rcases List.mem_singleton.1 hc with rfl
      rfl
    refine ⟨4, 0, 0, by omega, fun _ => rfl, by simp [hkey], ?_⟩
    rw [suiteTrace, List.map_cons,
      statesAfter_untouched_map (suiteInit prior (suiteNames cfg))
        (suiteCalls cfg) nb.1 hU, hs0, suiteCalls_none cfg hkey]
    simp [List.replicate_succ]
  | some key =>
    obtain ⟨l1, l2, hsplit⟩ := List.append_of_mem hmem
    have heq := suite_statusTrace_split prior cfg key hkey l1 l2 nb.1 nb.2 hsplit hnd
    exact ⟨_, _, _, by omega, fun h0 => by omega, fun _ => ⟨by omega, by omega⟩, heq⟩

/-- C2 witness: the block decomposition at the two-test fixture for the
succeeding test A. -/
theorem c2_witness :
    (finalStatus bOk = Status.success ∨ finalStatus bOk = Status.error)
    ∧ ∃ a b c : Nat, 1 ≤ a ∧ (b = 0 → c = 0)
        ∧ (cfgAB.apiKey.isSome → 1 ≤ b ∧ 1 ≤ c)
        ∧ (suiteTrace freshTester cfgAB).map (fun t => statusOf t "A")
          = List.replicate a (some Status.pending)
            ++ List.replicate b (some Status.running)
            ++ List.replicate c (some (finalStatus bOk)) :=
  c2_status_block_sequence freshTester cfgAB (by decide) ("A", bOk) (by decide)

/-- C4: the status transitions of a test are linearizable with its own log
emissions: for every initial segment of the body log calls the status
already reads running (so the flip to running precedes every body log),
and at the moment of the terminal flip every body log entry has already
been appended to the global sequence, after which the status reads the
terminal value. -/
theorem c4_status_linearizable (s : TesterState) (n : String) (b : TestBehavior)
    (h : (statusOf s n).isSome) :
    (∀ p q : List LogCall, b.logCalls = p ++ q →
      statusOf (runCalls s (Call.current n :: Call.status n Status.running ::
        testStartCall n b :: p.map logCallToCall)) n = some Status.running)
    ∧ (runCalls s (Call.current n :: Call.status n Status.running ::
        testStartCall n b :: (b.logCalls.map logCallToCall
          ++ [Call.status n (finalStatus b)]))).logs
      = s.logs ++ entryOf ("🔄 Starting " ++ n ++ "...") LogType.info n b.startTs
          :: b.logCalls.map logCallEntry
    ∧ statusOf (runCalls s (Call.current n :: Call.status n Status.running ::
        testStartCall n b :: (b.logCalls.map logCallToCall
          ++ [Call.status n (finalStatus b)]))) n = some (finalStatus b) := by
  obtain ⟨st0, hst0⟩ := Option.isSome_iff_exists.1 h
  have ht1 : statusOf (execCall s (Call.current n)) n = some st0 := by
    rw [statusOf_execCall_untouched s (Call.current n) n rfl, hst0]
  have ht2 : statusOf (execCall (execCall s (Call.current n))
      (Call.status n Status.running)) n = some Status.running := by
    show statusOf (updateTestStatus (execCall s (Call.current n)) n Status.running) n = _
    rw [statusOf_update_self, ht1]
    rfl
  have ht3 : statusOf (execCall (execCall (execCall s (Call.current n))
      (Call.status n Status.running)) (testStartCall n b)) n
      = some Status.running := by
    rw [statusOf_execCall_untouched _ (testStartCall n b) n rfl, ht2]
  refine ⟨?_, ?_, ?_⟩
  · intro p q hpq
    show statusOf (runCalls (execCall (execCall (execCall s (Call.current n))
        (Call.status n Status.running)) (testStartCall n b))
        (p.map logCallToCall)) n = some Status.running
    rw [statusOf_runCalls_untouched _ _ n (body_untouched n p), ht3]
  · rw [runCalls_logs]
    have he : emitted (Call.current n :: Call.status n Status.running ::
        testStartCall n b :: (b.logCalls.map logCallToCall
          ++ [Call.status n (finalStatus b)]))
        = entryOf ("🔄 Starting " ++ n ++ "...") LogType.info n b.startTs
            :: b.logCalls.map logCallEntry := by
      have hb := emitted_body b.logCalls
      simp only [emitted] at hb ⊢
      simp [List.filterMap_cons, List.filterMap_append, testStartCall, hb]
    rw [he]
  · show statusOf (runCalls (execCall (execCall (execCall s (Call.current n))
        (Call.status n Status.running)) (testStartCall n b))
        (b.logCalls.map logCallToCall ++ [Call.status n (finalStatus b)])) n
        = some (finalStatus b)
    rw [runCalls_append]
    show statusOf (updateTestStatus
        (runCalls (execCall (execCall (execCall s (Call.current n))
          (Call.status n Status.running)) (testStartCall n b))
          (b.logCalls.map logCallToCall)) n (finalStatus b)) n = some (finalStatus b)
    rw [statusOf_update_self,
      statusOf_runCalls_untouched _ _ n (body_untouched n b.logCalls), ht3]
    rfl

/-- C4 witness: after the body and the terminal flip, the status reads the
terminal value at the fixture test. -/
theorem c4_witness :
    statusOf (runCalls sDemo (Call.current "A" :: Call.status "A" Status.running ::
      testStartCall "A" bOk :: (bOk.logCalls.map logCallToCall
        ++ [Call.status "A" (finalStatus bOk)]))) "A" = some (finalStatus bOk) :=
  (c4_status_linearizable sDemo "A" bOk (by decide)).2.2

/-- C5: initialization replaces the tracked collection with exactly one
pending, empty-logged result per declared name, in declared order and
independently of the contents of any prior run, and every state of the
run keeps the same name sequence, hence the count stays the number of
declared names and names stay unique. -/
theorem c5_initialization (prior : TesterState) (cfg : SuiteConfig)
    (hnd : (suiteNames cfg).Nodup) :
    (suiteInit prior (suiteNames cfg)).testResults.map (fun r => r.name)
      = suiteNames cfg
    ∧ (∀ r ∈ (suiteInit prior (suiteNames cfg)).testResults,
        r.status = Status.pending ∧ r.logs = [])
    ∧ (suiteInit prior (suiteNames cfg)).testResults.length
      = (suiteNames cfg).length
    ∧ ∀ t ∈ suiteTrace prior cfg,
        t.testResults.map (fun r => r.name) = suiteNames cfg
        ∧ t.testResults.length = (suiteNames cfg).length
        ∧ (t.testResults.map fun r => r.name).Nodup := by
  have hnames : (suiteInit prior (suiteNames cfg)).testResults.map (fun r => r.name)
      = suiteNames cfg := by
    simp only [suiteInit]
    exact initResults_names (suiteNames cfg)
  refine ⟨hnames, ?_, ?_, ?_⟩
  · intro r hr
    exact ⟨initResults_all_pending _ r hr, initResults_all_empty_logs _ r hr⟩
  · have := congrArg List.length hnames
    simpa using this
  · intro t ht
    simp only [suiteTrace] at ht
    have htn : t.testResults.map (fun r => r.name) = suiteNames cfg := by
      rcases List.mem_cons.1 ht with rfl | ht
      · exact hnames
      · rw [statesAfter_names _ _ t ht]
        exact hnames
    refine ⟨htn, ?_, ?_⟩
    · have := congrArg List.length htn
      simpa using this
    · rw [htn]
      exact hnd

/-- C5 witness: initialization at the two-test fixture yields exactly the
declared names in order. -/
theorem c5_witness :
    (suiteInit freshTester (suiteNames cfgAB)).testResults.map (fun r => r.name)
      = suiteNames cfgAB :=
  (c5_initialization freshTester cfgAB (by decide)).1

/-- C7: a suite run started without the API key aborts before any test
body runs: every state of the trace shows every tracked result still
pending, and the run records exactly one error-level log entry, in
category general. -/
theorem c7_missing_key_aborts (cfg : SuiteConfig) (hkey : cfg.apiKey = none) :
    (∀ t ∈ suiteTrace freshTester cfg, ∀ r ∈ t.testResults,
        r.status = Status.pending)
    ∧ ((runAllTests freshTester cfg).logs.filter fun e =>
          e.type == LogType.error).map (fun e => e.category) = ["general"] := by
  constructor
  · intro t ht
    simp only [suiteTrace] at ht
    rw [suiteCalls_none cfg hkey] at ht
    simp only [statesAfter, List.mem_cons, List.not_mem_nil, or_false] at ht
    have h0 : ∀ r ∈ (suiteInit freshTester (suiteNames cfg)).testResults,
        r.status = Status.pending := initResults_all_pending _
    have h1 : ∀ r ∈ (execCall (suiteInit freshTester (suiteNames cfg))
        (suiteStartCall cfg)).testResults, r.status = Status.pending :=
      addLog_all_pending _ _ _ _ _ h0
    have h2 : ∀ r ∈ (execCall (execCall (suiteInit freshTester (suiteNames cfg))
        (suiteStartCall cfg)) (suiteKeyErrorCall cfg)).testResults,
        r.status = Status.pending :=
      addLog_all_pending _ _ _ _ _ h1
    have h3 : ∀ r ∈ (execCall (execCall (execCall
        (suiteInit freshTester (suiteNames cfg)) (suiteStartCall cfg))
        (suiteKeyErrorCall cfg)) (suiteEndCall cfg)).testResults,
        r.status = Status.pending :=
      addLog_all_pending _ _ _ _ _ h2
    rcases ht with rfl | rfl | rfl | rfl
    · exact h0
    · exact h1
    · exact h2
    · exact h3
  · show ((runCalls (suiteInit freshTester (suiteNames cfg)) (suiteCalls cfg)).logs.filter
        fun e => e.type == LogType.error).map (fun e => e.category) = ["general"]
    rw [suiteCalls_none cfg hkey, runCalls_logs]
    rfl

/-- C7 witness: the keyless fixture run records exactly one error log, in
category general. -/
theorem c7_witness :
    ((runAllTests freshTester cfgNoKey).logs.filter fun e =>
        e.type == LogType.error).map (fun e => e.category) = ["general"] :=
  (c7_missing_key_aborts cfgNoKey rfl).2
